import Mathlib

/-!
Verification of the concurrency-coordination core of the focus-mode browser
extension: the media-controller ownership tracker (media-controller.js), the
focus state machine (content.js), and the broadcast serializer plus
generation-token guard (background.js).

The JavaScript is single-threaded and cooperative: code between awaits is
atomic with respect to other entry points.  The embedding therefore models
each synchronous code section as a total Lean function on an explicit state,
and the one real suspension point of the state machine (the overlay fade
awaited inside the enter-ACTIVE / enter-DISABLED handlers) as an explicit
suspension marker; external events that can interleave at suspension points
are modelled as labelled steps of small transition systems.

Per-resource side effects that the source wraps in try/catch (pause(),
play(), per-tab sendMessage) are modelled with explicit failure sets chosen
adversarially: a failing call leaves the resource unchanged but the loop
continues, exactly as the caught exception does in the source.
-/

namespace FocusMode

/-! ## Media controller (src/extension/media-controller.js)

A media element is identified by its position in the `els` list (the order
`getAllMedia()` returns).  `paused` is the element's `el.paused` flag and
`owned` is its membership in the `pausedByUs` WeakSet. -/

structure MediaEl where
  paused : Bool
  owned : Bool
deriving DecidableEq, Repr

/-- Calls the controller makes into the page: `el.pause()` and `el.play()`
on the element at index `i`. -/
inductive MEvent
  | pauseCall (i : Nat)
  | playCall (i : Nat)
deriving DecidableEq, Repr

/-- One iteration of the `pauseAllMedia` loop (media-controller.js lines
38-48) on the element at absolute index `i`: a playing element is paused and
added to `pausedByUs`; if `el.pause()` throws (`i ∈ pf`) the catch swallows
the error and the element is neither paused nor added. -/
def pauseStep (pf : List Nat) (i : Nat) (el : MediaEl) : MediaEl × Nat × List MEvent :=
  if el.paused then (el, 0, [])
  else if i ∈ pf then (el, 0, [MEvent.pauseCall i])
  else (⟨true, true⟩, 1, [MEvent.pauseCall i])

/-- One iteration of the `resumeOurPausedMedia` loop (lines 59-71): an owned
and paused element gets `el.play()` and is deleted from `pausedByUs`; the
delete happens after the try/catch, so it happens even when `el.play()`
throws (`i ∈ rf`), in which case the element stays paused and the count is
not incremented.  An element that is not both owned and paused is skipped
entirely: no play call and, in particular, no removal from the set. -/
def resumeStep (rf : List Nat) (i : Nat) (el : MediaEl) : MediaEl × Nat × List MEvent :=
  if el.owned && el.paused then
    if i ∈ rf then (⟨true, false⟩, 0, [MEvent.playCall i])
    else (⟨false, false⟩, 1, [MEvent.playCall i])
  else (el, 0, [])

/-- One iteration of the `fallbackPause` loop (lines 122-131): pause a
playing element that is not already in `pausedByUs`. -/
def fallbackStep (pf : List Nat) (i : Nat) (el : MediaEl) : MediaEl × Nat × List MEvent :=
  if !el.paused && !el.owned then
    if i ∈ pf then (el, 0, [MEvent.pauseCall i])
    else (⟨true, true⟩, 0, [MEvent.pauseCall i])
  else (el, 0, [])

/-- The `for (const el of getAllMedia())` loop shape shared by
`pauseAllMedia`, `resumeOurPausedMedia` and `fallbackPause`: apply a
per-element step at increasing indices, collecting the count and the calls
made, in order. -/
def forEachMedia (f : Nat → MediaEl → MediaEl × Nat × List MEvent) (k : Nat) :
    List MediaEl → List MediaEl × Nat × List MEvent
  | [] => ([], 0, [])
  | el :: rest =>
    let r1 := f k el
    let r2 := forEachMedia f (k + 1) rest
    (r1.1 :: r2.1, r1.2.1 + r2.2.1, r1.2.2 ++ r2.2.2)

/-- `pauseAllMedia()` (media-controller.js lines 35-51). -/
def pauseAllMedia (pf : List Nat) (els : List MediaEl) : List MediaEl × Nat × List MEvent :=
  forEachMedia (pauseStep pf) 0 els

/-- `resumeOurPausedMedia()` (media-controller.js lines 56-74). -/
def resumeOurPausedMedia (rf : List Nat) (els : List MediaEl) :
    List MediaEl × Nat × List MEvent :=
  forEachMedia (resumeStep rf) 0 els

/-- Controller state: the page's media elements plus the
`mediaWatcherActive` flag. -/
structure MediaState where
  els : List MediaEl
  watcherActive : Bool
deriving DecidableEq, Repr

/-- `fallbackPause()` (lines 120-132): a no-op unless the watcher is
active. -/
def fallbackPause (pf : List Nat) (s : MediaState) : MediaState × List MEvent :=
  if s.watcherActive then
    let r := forEachMedia (fallbackStep pf) 0 s.els
    (⟨r.1, s.watcherActive⟩, r.2.2)
  else (s, [])

/-- `onMediaElementFound(el)` (lines 79-89) for the element at index `i`
(a no-op when the index does not denote an element). -/
def onMediaElementFound (fail : Bool) (i : Nat) (s : MediaState) : MediaState × List MEvent :=
  if s.watcherActive then
    match s.els.get? i with
    | none => (s, [])
    | some el =>
      if el.paused then (s, [])
      else if fail then (s, [MEvent.pauseCall i])
      else (⟨s.els.set i ⟨true, true⟩, s.watcherActive⟩, [MEvent.pauseCall i])
  else (s, [])

/-- `startMediaWatcher()` (lines 138-158): idempotent; on first start it
pauses everything currently playing.  The MutationObserver and interval it
installs are modelled by the `opFound` / `opFallback` steps being enabled
while `watcherActive` is true. -/
def startMediaWatcher (pf : List Nat) (s : MediaState) : MediaState × List MEvent :=
  if s.watcherActive then (s, [])
  else
    let r := pauseAllMedia pf s.els
    (⟨r.1, true⟩, r.2.2)

/-- `stopMediaWatcher()` (lines 164-176): idempotent; resumes nothing. -/
def stopMediaWatcher (s : MediaState) : MediaState :=
  ⟨s.els, false⟩

/-- An element's `paused` flag changed by the page itself (user presses
play/pause, autoplay, scripts): ownership is untouched. -/
def extSetPaused (i : Nat) (b : Bool) (s : MediaState) : MediaState :=
  match s.els.get? i with
  | none => s
  | some el => ⟨s.els.set i ⟨b, el.owned⟩, s.watcherActive⟩

/-- The operations that can hit the controller state: its own four API
functions, the watcher callbacks, and external page activity. -/
inductive MediaOp
  | opPauseAll (pf : List Nat)
  | opResume (rf : List Nat)
  | opStartWatcher (pf : List Nat)
  | opStopWatcher
  | opFound (fail : Bool) (i : Nat)
  | opFallback (pf : List Nat)
  | extPlay (i : Nat)
  | extPause (i : Nat)
  | extAdd (paused : Bool)
deriving DecidableEq, Repr

/-- Apply one operation; the second component lists the pause/play calls the
controller itself made during the operation. -/
def applyOp (s : MediaState) : MediaOp → MediaState × List MEvent
  | MediaOp.opPauseAll pf =>
    let r := pauseAllMedia pf s.els
    (⟨r.1, s.watcherActive⟩, r.2.2)
  | MediaOp.opResume rf =>
    let r := resumeOurPausedMedia rf s.els
    (⟨r.1, s.watcherActive⟩, r.2.2)
  | MediaOp.opStartWatcher pf => startMediaWatcher pf s
  | MediaOp.opStopWatcher => (stopMediaWatcher s, [])
  | MediaOp.opFound fail i => onMediaElementFound fail i s
  | MediaOp.opFallback pf => fallbackPause pf s
  | MediaOp.extPlay i => (extSetPaused i false s, [])
  | MediaOp.extPause i => (extSetPaused i true s, [])
  | MediaOp.extAdd p => (⟨s.els ++ [⟨p, false⟩], s.watcherActive⟩, [])

/-- Run a sequence of operations, concatenating the controller's calls in
order. -/
def runOps (s : MediaState) : List MediaOp → MediaState × List MEvent
  | [] => (s, [])
  | op :: rest =>
    let r1 := applyOp s op
    let r2 := runOps r1.1 rest
    (r2.1, r1.2 ++ r2.2)

/-! ### Loop lemmas -/

theorem forEachMedia_length (f : Nat → MediaEl → MediaEl × Nat × List MEvent) (k : Nat)
    (els : List MediaEl) : (forEachMedia f k els).1.length = els.length := by
  induction els generalizing k with
  | nil => rfl
  | cons el rest ih => simp [forEachMedia, ih]

theorem forEachMedia_get (f : Nat → MediaEl → MediaEl × Nat × List MEvent) (k : Nat)
    (els : List MediaEl) (j : Nat) (el : MediaEl) (h : els.get? j = some el) :
    (forEachMedia f k els).1.get? j = some (f (k + j) el).1 ∧
      ∀ e, e ∈ (f (k + j) el).2.2 → e ∈ (forEachMedia f k els).2.2 := by
  induction els generalizing k j with
  | nil => simp at h
  | cons el0 rest ih =>
    cases j with
    | zero =>
      simp only [List.get?] at h
      cases h
      refine ⟨by simp [forEachMedia], ?_⟩
      intro e he
      simp only [forEachMedia, List.mem_append]
      exact Or.inl (by simpa using he)
    | succ j' =>
      simp only [List.get?] at h
      have hidx : k + (j' + 1) = (k + 1) + j' := by omega
      have := ih (k + 1) j' h
      rw [hidx]
      constructor
      · simpa [forEachMedia] using this.1
      · intro e he
        simp only [forEachMedia, List.mem_append]
        exact Or.inr (this.2 e he)

theorem forEachMedia_events (f : Nat → MediaEl → MediaEl × Nat × List MEvent) (k : Nat)
    (els : List MediaEl) (e : MEvent) (h : e ∈ (forEachMedia f k els).2.2) :
    ∃ j el, els.get? j = some el ∧ e ∈ (f (k + j) el).2.2 := by
  induction els generalizing k with
  | nil => simp [forEachMedia] at h
  | cons el0 rest ih =>
    simp only [forEachMedia, List.mem_append] at h
    rcases h with h | h
    · exact ⟨0, el0, rfl, by simpa using h⟩
    · obtain ⟨j, el, hg, he⟩ := ih (k + 1) h
      have hidx : k + (j + 1) = (k + 1) + j := by omega
      exact ⟨j + 1, el, hg, by rw [hidx]; exact he⟩

/-! ## Focus state machine (src/extension/content.js)

`FocusStateMachine` serializes mode transitions.  The only real suspension
point, at which other entry points can interleave, is the `await
this._fadeOutOverlay()` inside `_enterActive` / `_enterDisabled` (the fade
resolves from a setTimeout; everything else in a transition runs
synchronously on the single JS thread).  A configuration therefore carries a
`Susp` marker: `idle`, or `fading t` meaning a transition into `t` is parked
at that await with `_transitioning` still set. -/

/-- The `State` enum (content.js lines 503-507). -/
inductive Mode
  | ACTIVE
  | INACTIVE
  | DISABLED
deriving DecidableEq, Repr

/-- A status payload as delivered to the content script. -/
structure StatusData where
  active : Bool
  disabled : Bool
  daemonOnline : Bool
  elapsed : Nat
  timeout : Option Nat
deriving DecidableEq, Repr

/-- The `FocusStateMachine` instance fields that the transition logic
reads and writes (constructor, lines 509-520). -/
structure FSM where
  state : Mode
  transitioning : Bool
  pendingTransition : Option (Mode × Option StatusData)
  timeout : Nat
  statusData : Option StatusData
deriving DecidableEq, Repr

/-- The constructor: start in ACTIVE, not transitioning, nothing pending,
no status yet, default timeout 2 minutes. -/
def FSM.init : FSM :=
  ⟨Mode.ACTIVE, false, none, 2, none⟩

/-- Side effects a transition performs, in order.  `startWatch`/`stopWatch`
are the media-watcher calls, `pauseAll`/`resumeOwned` the direct media
calls, the rest the overlay/timer calls. -/
inductive Eff
  | startWatch
  | stopWatch
  | pauseAll
  | resumeOwned
  | createOverlay
  | updateOverlay
  | fadeOutBegin
  | fadeOutEnd
  | startElapsed
  | stopElapsed
  | startPoll
  | stopPoll
deriving DecidableEq, Repr

/-- Whether a transition is parked at the fade await, and into which mode. -/
inductive Susp
  | idle
  | fading (target : Mode)
deriving DecidableEq, Repr

/-- A machine configuration: the FSM fields, the page's media-controller
state, the suspension marker, and the cumulative log of media calls. -/
structure Conf where
  fsm : FSM
  media : MediaState
  susp : Susp
  log : List MEvent
deriving DecidableEq, Repr

/-- A fresh machine attached to a page: no effects have run, no media has
been touched. -/
def Conf.init (ms : MediaState) : Conf :=
  ⟨FSM.init, ms, Susp.idle, []⟩

/-- `if (statusData) this._statusData = statusData` (line 564). -/
def newStatusData (d : Option StatusData) (old : Option StatusData) : Option StatusData :=
  match d with
  | some p => some p
  | none => old

/-- `if (statusData?.timeout) this._timeout = statusData.timeout`
(line 565); JavaScript truthiness makes a 0 timeout a no-op. -/
def newTimeout (d : Option StatusData) (old : Nat) : Nat :=
  match d with
  | some p =>
    match p.timeout with
    | some v => if v = 0 then old else v
    | none => old
  | none => old

/-- `_enterInactive` (lines 595-606): start the media watcher (which pauses
everything currently playing), then create the overlay, refresh it, start
the elapsed timer and the poll timer.  Fully synchronous. -/
def enterInactiveStep (pf : List Nat) (_prevState : Mode) (ms : MediaState) :
    MediaState × List Eff × List MEvent :=
  let r := startMediaWatcher pf ms
  (r.1, [Eff.startWatch, Eff.createOverlay, Eff.updateOverlay, Eff.startElapsed,
         Eff.startPoll], r.2)

/-- The synchronous part of `_enterActive` (lines 612-621) up to the fade
await: stop the watcher and both timers, begin the overlay fade. -/
def enterActiveStart (_prevState : Mode) (ms : MediaState) : MediaState × List Eff :=
  (stopMediaWatcher ms, [Eff.stopWatch, Eff.stopElapsed, Eff.stopPoll, Eff.fadeOutBegin])

/-- The synchronous part of `_enterDisabled` (lines 630-637) up to the fade
await: stop the watcher and both timers, begin the overlay fade. -/
def enterDisabledStart (_prevState : Mode) (ms : MediaState) : MediaState × List Eff :=
  (stopMediaWatcher ms, [Eff.stopWatch, Eff.stopElapsed, Eff.stopPoll, Eff.fadeOutBegin])

/-- The rest of `_enterActive` after the fade resolves (lines 621-624):
resume the media this system paused. -/
def enterActiveFinish (rf : List Nat) (ms : MediaState) : MediaState × List Eff × List MEvent :=
  let r := resumeOurPausedMedia rf ms.els
  (⟨r.1, ms.watcherActive⟩, [Eff.fadeOutEnd, Eff.resumeOwned], r.2.2)

/-- The rest of `_enterDisabled` after the fade resolves (lines 637-638):
resume the media this system paused. -/
def enterDisabledFinish (rf : List Nat) (ms : MediaState) : MediaState × List Eff × List MEvent :=
  let r := resumeOurPausedMedia rf ms.els
  (⟨r.1, ms.watcherActive⟩, [Eff.fadeOutEnd, Eff.resumeOwned], r.2.2)

/-- `_executeTransition(newState, statusData)` (lines 548-590), covering
everything that runs synchronously from its invocation: the same-state
branch; or flag set, mode switch, payload/timeout update and the enter
handler, where entering INACTIVE completes synchronously (including the
`finally` that clears the flag and drains the pending slot), while entering
ACTIVE/DISABLED parks at the fade await with the `finally` still to run.
The drain call in the `finally` re-enters this same function, matching the
recursive `this._executeTransition(state, data)` of the source. -/
def execTransition (pf rf : List Nat) (c : Conf) (m : Mode) (d : Option StatusData) :
    Conf × List Eff :=
  if m = c.fsm.state then
    -- same state: refresh payload and overlay; re-pause when INACTIVE (lines 549-558)
    let fsm1 : FSM := ⟨c.fsm.state, c.fsm.transitioning, c.fsm.pendingTransition,
                       c.fsm.timeout, newStatusData d c.fsm.statusData⟩
    if c.fsm.state = Mode.INACTIVE then
      let r := pauseAllMedia pf c.media.els
      (⟨fsm1, ⟨r.1, c.media.watcherActive⟩, c.susp, c.log ++ r.2.2⟩,
       [Eff.updateOverlay, Eff.pauseAll])
    else
      (⟨fsm1, c.media, c.susp, c.log⟩, [Eff.updateOverlay])
  else
    let t := newTimeout d c.fsm.timeout
    let sd := newStatusData d c.fsm.statusData
    match m with
    | Mode.INACTIVE =>
      let r := enterInactiveStep pf c.fsm.state c.media
      -- finally: clear the flag, then drain the pending slot (lines 580-589)
      match hp : c.fsm.pendingTransition with
      | none =>
        (⟨⟨Mode.INACTIVE, false, none, t, sd⟩, r.1, Susp.idle, c.log ++ r.2.2⟩, r.2.1)
      | some (m2, d2) =>
        let c2 : Conf := ⟨⟨Mode.INACTIVE, false, none, t, sd⟩, r.1, Susp.idle, c.log ++ r.2.2⟩
        let r2 := execTransition pf rf c2 m2 d2
        (r2.1, r.2.1 ++ r2.2)
    | Mode.ACTIVE =>
      let r := enterActiveStart c.fsm.state c.media
      (⟨⟨Mode.ACTIVE, true, c.fsm.pendingTransition, t, sd⟩, r.1,
        Susp.fading Mode.ACTIVE, c.log⟩, r.2)
    | Mode.DISABLED =>
      let r := enterDisabledStart c.fsm.state c.media
      (⟨⟨Mode.DISABLED, true, c.fsm.pendingTransition, t, sd⟩, r.1,
        Susp.fading Mode.DISABLED, c.log⟩, r.2)
termination_by c.fsm.pendingTransition.elim 0 fun _ => 1
decreasing_by simp [hp]

/-- The fade's setTimeout firing: the parked enter handler resumes, runs its
post-await tail, then the `finally` clears `_transitioning` and drains the
pending slot (lines 580-589).  A no-op on an idle configuration. -/
def fadeDone (pf rf : List Nat) (c : Conf) : Conf × List Eff :=
  match c.susp with
  | Susp.idle => (c, [])
  | Susp.fading t =>
    let r := match t with
      | Mode.DISABLED => enterDisabledFinish rf c.media
      | _ => enterActiveFinish rf c.media  -- only ACTIVE occurs; INACTIVE never suspends
    match c.fsm.pendingTransition with
    | none =>
      (⟨⟨c.fsm.state, false, none, c.fsm.timeout, c.fsm.statusData⟩, r.1, Susp.idle,
        c.log ++ r.2.2⟩, r.2.1)
    | some (m2, d2) =>
      let c2 : Conf := ⟨⟨c.fsm.state, false, none, c.fsm.timeout, c.fsm.statusData⟩, r.1,
                        Susp.idle, c.log ++ r.2.2⟩
      let r2 := execTransition pf rf c2 m2 d2
      (r2.1, r.2.1 ++ r2.2)

/-- `transition(newState, statusData)` (lines 533-543): while a transition
is executing, just overwrite the single pending slot and return -- the
caller never blocks and no effect runs; otherwise execute now. -/
def callTransition (pf rf : List Nat) (c : Conf) (m : Mode) (d : Option StatusData) :
    Conf × List Eff :=
  if c.fsm.transitioning then
    (⟨⟨c.fsm.state, c.fsm.transitioning, some (m, d), c.fsm.timeout, c.fsm.statusData⟩,
      c.media, c.susp, c.log⟩, [])
  else execTransition pf rf c m d

/-- A burst of `transition` calls arriving in order, with the effects each
one performed, concatenated. -/
def applyCalls (pf rf : List Nat) (c : Conf) :
    List (Mode × Option StatusData) → Conf × List Eff
  | [] => (c, [])
  | (m, d) :: rest =>
    let r := callTransition pf rf c m d
    let r2 := applyCalls pf rf r.1 rest
    (r2.1, r.2 ++ r2.2)

/-! ## Broadcast serializer (src/extension/background.js lines 332-353)

`serializedBroadcast` keeps a `broadcastInProgress` flag and a boolean
`broadcastQueued` follow-up marker; `broadcastStatus` fans the live
`lastStatus` out to the tabs, with a per-tab try/catch.  A status source
performs `lastStatus = p; serializedBroadcast()` atomically up to the first
await.  Receivers are abstracted as ids `0 .. n-1` (the tabs the fan-out
pass visits, in order); `delivered` records the last status each one
received.  `scheduled` counts `setTimeout(() => serializedBroadcast(), 0)`
callbacks that have been queued by a finishing pass but have not fired yet.
`passes` is the multiset of fan-out passes currently executing, each as its
list of still-unvisited receivers -- the single-flight invariant proved
below is that it never holds more than one pass. -/

structure BCast where
  inProgress : Bool
  queued : Bool
  lastStatus : StatusData
  scheduled : Nat
  passes : List (List Nat)
  delivered : List (Option StatusData)
deriving DecidableEq, Repr

/-- Fresh orchestrator state over `n` receivers. -/
def initB (n : Nat) (p0 : StatusData) : BCast :=
  ⟨false, false, p0, 0, [], List.replicate n none⟩

/-- A status source: store the new status, then run `serializedBroadcast()`
up to its first await (lines 337-344): either just set the queued flag, or
raise the in-progress flag and start a fan-out pass over all receivers. -/
def requestBroadcast (n : Nat) (p : StatusData) (s : BCast) : BCast :=
  if s.inProgress then ⟨true, true, p, s.scheduled, s.passes, s.delivered⟩
  else ⟨true, s.queued, p, s.scheduled, s.passes ++ [List.range n], s.delivered⟩

/-- A scheduled `setTimeout(() => serializedBroadcast(), 0)` callback
firing: one fewer callback pending, then exactly the `serializedBroadcast`
entry logic on the current `lastStatus`. -/
def timerFire (n : Nat) (s : BCast) : BCast :=
  if s.inProgress then ⟨true, true, s.lastStatus, s.scheduled - 1, s.passes, s.delivered⟩
  else ⟨true, s.queued, s.lastStatus, s.scheduled - 1, s.passes ++ [List.range n],
        s.delivered⟩

/-- The interleavable steps of the serializer: a request; one per-receiver
send inside a pass (reading the live `lastStatus`, like the spread of
`lastStatus` at each `sendMessage`), possibly failing (the per-tab catch);
a pass finishing (the `finally`: clear the flag, and schedule one follow-up
callback when the queued marker is set); a scheduled callback firing. -/
inductive BStep (n : Nat) : BCast → BCast → Prop
  | request (p : StatusData) (s : BCast) : BStep n s (requestBroadcast n p s)
  | send (s : BCast) (i r : Nat) (rest : List Nat) :
      s.passes.get? i = some (r :: rest) →
      BStep n s ⟨s.inProgress, s.queued, s.lastStatus, s.scheduled,
                 s.passes.set i rest, s.delivered.set r (some s.lastStatus)⟩
  | sendFail (s : BCast) (i r : Nat) (rest : List Nat) :
      s.passes.get? i = some (r :: rest) →
      BStep n s ⟨s.inProgress, s.queued, s.lastStatus, s.scheduled,
                 s.passes.set i rest, s.delivered⟩
  | finish (s : BCast) (i : Nat) :
      s.passes.get? i = some [] → s.queued = false →
      BStep n s ⟨false, false, s.lastStatus, s.scheduled, s.passes.eraseIdx i, s.delivered⟩
  | finishQueued (s : BCast) (i : Nat) :
      s.passes.get? i = some [] → s.queued = true →
      BStep n s ⟨false, false, s.lastStatus, s.scheduled + 1, s.passes.eraseIdx i,
                 s.delivered⟩
  | timer (s : BCast) : 0 < s.scheduled → BStep n s (timerFire n s)

/-- The serializer's invariant: at most one fan-out pass exists, the
in-progress flag tracks exactly whether one does, the queued marker is only
ever set while a pass is in progress, and the delivery table covers the `n`
receivers. -/
def BInv (n : Nat) (s : BCast) : Prop :=
  s.passes.length ≤ 1 ∧ (s.inProgress = true ↔ s.passes ≠ []) ∧
    (s.queued = true → s.inProgress = true) ∧ s.delivered.length = n

/-- The remainder of a fan-out pass run without interruption: send the live
`lastStatus` to each still-unvisited receiver in order. -/
def runPass (s : BCast) : List Nat → BCast
  | [] => s
  | r :: rest =>
    runPass ⟨s.inProgress, s.queued, s.lastStatus, s.scheduled, s.passes,
             s.delivered.set r (some s.lastStatus)⟩ rest

/-- The `finally` of `serializedBroadcast` (lines 345-352), with `rest` the
passes other than the finishing one: clear the in-progress flag; if the
queued marker is set, clear it and schedule a follow-up callback. -/
def finishPass (s : BCast) (rest : List (List Nat)) : BCast :=
  if s.queued then ⟨false, false, s.lastStatus, s.scheduled + 1, rest, s.delivered⟩
  else ⟨false, s.queued, s.lastStatus, s.scheduled, rest, s.delivered⟩

/-- The event loop running the scheduled callbacks to quiescence when no
further requests arrive: each firing callback that finds the serializer
idle runs a complete fan-out pass. -/
def drainTimers (n : Nat) : Nat → BCast → BCast
  | 0, s => s
  | fuel + 1, s =>
    if s.scheduled = 0 then s
    else
      let s1 : BCast := ⟨s.inProgress, s.queued, s.lastStatus, s.scheduled - 1, s.passes,
                         s.delivered⟩
      if s1.inProgress then
        drainTimers n fuel ⟨true, true, s1.lastStatus, s1.scheduled, s1.passes, s1.delivered⟩
      else
        drainTimers n fuel
          (finishPass (runPass ⟨true, s1.queued, s1.lastStatus, s1.scheduled, [],
                                s1.delivered⟩ (List.range n)) [])

/-- The event loop running the whole system to quiescence when no further
requests arrive: complete the in-flight pass (if any) and its `finally`,
then let every scheduled callback fire. -/
def drainB (n : Nat) (s : BCast) : BCast :=
  let s1 := match s.passes with
    | [] => s
    | rem :: _ =>
      finishPass (runPass ⟨s.inProgress, s.queued, s.lastStatus, s.scheduled, [],
                           s.delivered⟩ rem) []
  drainTimers n s1.scheduled s1

/-! ## Generation guard (src/extension/background.js lines 355-363, 647-685)

`serializedUpdateAllSites` increments the global `updateGeneration` and
hands the new value to `updateAllSites`, which re-checks it before every
tab and returns as soon as it is stale. -/

/-- `++updateGeneration` inside `serializedUpdateAllSites`: the new current
value, and the token the started enumeration captures (the same value). -/
def beginGen (g : Nat) : Nat × Nat :=
  (g + 1, g + 1)

/-- The guard the loop evaluates (negation of `gen !== updateGeneration`). -/
def isCurrent (g token : Nat) : Bool :=
  token == g

/-- An in-flight `updateAllSites(gen)` enumeration: its captured token and
the receivers it has not visited yet. -/
structure EnumCfg where
  token : Nat
  remaining : List Nat
deriving DecidableEq, Repr

/-- One iteration of the `updateAllSites` loop (lines 651-681): with
receivers left, a stale token makes the whole enumeration return (nothing
further is visited, nothing sent); a current token sends to the next
receiver.  The second component is the send performed, as (token,
receiver). -/
def checkpointStep (current : Nat) (e : EnumCfg) : EnumCfg × List (Nat × Nat) :=
  match e.remaining with
  | [] => (e, [])
  | r :: rest =>
    if isCurrent current e.token then (⟨e.token, rest⟩, [(e.token, r)])
    else (⟨e.token, []⟩, [])

/-- Orchestrator state for the generation guard: the live
`updateGeneration`, the enumerations started so far, and the log of sends
performed, in order. -/
structure GState where
  current : Nat
  enums : List EnumCfg
  sent : List (Nat × Nat)
deriving DecidableEq, Repr

/-- Steps: `serializedUpdateAllSites()` begins a new enumeration over the
receiver list `recv` with a freshly incremented generation; or some
in-flight enumeration reaches its next per-receiver checkpoint. -/
inductive GStep (recv : List Nat) : GState → GState → Prop
  | begin (s : GState) :
      GStep recv s ⟨(beginGen s.current).1,
                    s.enums ++ [⟨(beginGen s.current).2, recv⟩], s.sent⟩
  | check (s : GState) (i : Nat) (e : EnumCfg) :
      s.enums.get? i = some e →
      GStep recv s ⟨s.current, s.enums.set i (checkpointStep s.current e).1,
                    s.sent ++ (checkpointStep s.current e).2⟩

/-- Reachability in the generation-guard system. -/
def GReach (recv : List Nat) : GState → GState → Prop :=
  Relation.ReflTransGen (GStep recv)

/-! ## Per-element analysis of the media loops -/

/-- Only the element's own index is ever the subject of a play call, and
only when the element was owned and paused. -/
theorem resumeStep_playCall (rf : List Nat) (j i : Nat) (el : MediaEl)
    (h : MEvent.playCall i ∈ (resumeStep rf j el).2.2) :
    i = j ∧ el.owned = true ∧ el.paused = true := by
  by_cases ho : el.owned = true
  · by_cases hpp : el.paused = true
    · refine ⟨?_, ho, hpp⟩
      by_cases hj : j ∈ rf <;> simp [resumeStep, ho, hpp, hj] at h <;> omega
    · simp [resumeStep, ho, hpp] at h
  · simp [resumeStep, ho] at h

/-- `pauseStep` performs no play call. -/
theorem pauseStep_no_playCall (pf : List Nat) (j i : Nat) (el : MediaEl) :
    MEvent.playCall i ∉ (pauseStep pf j el).2.2 := by
  by_cases hpp : el.paused <;> by_cases hj : j ∈ pf <;> simp [pauseStep, hpp, hj]

/-- `fallbackStep` performs no play call. -/
theorem fallbackStep_no_playCall (pf : List Nat) (j i : Nat) (el : MediaEl) :
    MEvent.playCall i ∉ (fallbackStep pf j el).2.2 := by
  by_cases hpp : el.paused <;> by_cases ho : el.owned <;> by_cases hj : j ∈ pf <;>
    simp [fallbackStep, hpp, ho, hj]

/-- Looking up an element in the output of a media loop: the input had an
element there too. -/
theorem forEachMedia_get_rev (f : Nat → MediaEl → MediaEl × Nat × List MEvent) (k : Nat)
    (els : List MediaEl) (j : Nat) (el' : MediaEl)
    (h : (forEachMedia f k els).1.get? j = some el') :
    ∃ el, els.get? j = some el ∧ el' = (f (k + j) el).1 := by
  cases hg : els.get? j with
  | none =>
    rw [List.get?_eq_none] at hg
    have : (forEachMedia f k els).1.get? j = none := by
      rw [List.get?_eq_none, forEachMedia_length]
      exact hg
    rw [this] at h
    cases h
  | some el =>
    have := (forEachMedia_get f k els j el hg).1
    rw [this] at h
    exact ⟨el, rfl, (Option.some.inj h).symm⟩

/-! ## Ownership-tracking invariant (C6)

Every element the controller currently owns was the subject of an earlier
`el.pause()` call made by the controller itself. -/

/-- Every owned element has a logged controller pause call. -/
def ownedLogged (s : MediaState) (evs : List MEvent) : Prop :=
  ∀ i el, s.els.get? i = some el → el.owned = true → MEvent.pauseCall i ∈ evs

/-- Ownership acquired during a pause-style loop step is always accompanied
by a pause call on that very element. -/
theorem pauseStep_owned (pf : List Nat) (j : Nat) (el : MediaEl)
    (h : ((pauseStep pf j el).1).owned = true) :
    el.owned = true ∨ MEvent.pauseCall j ∈ (pauseStep pf j el).2.2 := by
  by_cases hpp : el.paused <;> by_cases hj : j ∈ pf <;>
    simp [pauseStep, hpp, hj] at h ⊢ <;> simp [h]

/-- `resumeStep` never acquires ownership. -/
theorem resumeStep_owned (rf : List Nat) (j : Nat) (el : MediaEl)
    (h : ((resumeStep rf j el).1).owned = true) : el.owned = true := by
  by_cases ho : el.owned
  · exact ho
  · by_cases hpp : el.paused <;> by_cases hj : j ∈ rf <;>
      simp [resumeStep, ho, hpp, hj] at h

/-- Ownership acquired during a fallback-pause loop step is always
accompanied by a pause call on that very element. -/
theorem fallbackStep_owned (pf : List Nat) (j : Nat) (el : MediaEl)
    (h : ((fallbackStep pf j el).1).owned = true) :
    el.owned = true ∨ MEvent.pauseCall j ∈ (fallbackStep pf j el).2.2 := by
  by_cases hpp : el.paused <;> by_cases ho : el.owned <;> by_cases hj : j ∈ pf <;>
    simp [fallbackStep, hpp, ho, hj] at h ⊢ <;> simp [h]

/-- The pause-all loop preserves the ownership invariant. -/
theorem pauseLoop_ownedLogged (pf : List Nat) (els : List MediaEl) (evs : List MEvent)
    (h : ∀ i el, els.get? i = some el → el.owned = true → MEvent.pauseCall i ∈ evs)
    (i : Nat) (el' : MediaEl)
    (hg : (forEachMedia (pauseStep pf) 0 els).1.get? i = some el')
    (ho : el'.owned = true) :
    MEvent.pauseCall i ∈ evs ++ (forEachMedia (pauseStep pf) 0 els).2.2 := by
  obtain ⟨el, hgo, rfl⟩ := forEachMedia_get_rev _ 0 els i el' hg
  rw [Nat.zero_add] at ho
  rcases pauseStep_owned pf i el ho with h1 | h1
  · exact List.mem_append_left _ (h i el hgo h1)
  · refine List.mem_append_right _ ?_
    have := (forEachMedia_get (pauseStep pf) 0 els i el hgo).2
    rw [Nat.zero_add] at this
    exact this _ h1

/-- The fallback-pause loop preserves the ownership invariant. -/
theorem fallbackLoop_ownedLogged (pf : List Nat) (els : List MediaEl) (evs : List MEvent)
    (h : ∀ i el, els.get? i = some el → el.owned = true → MEvent.pauseCall i ∈ evs)
    (i : Nat) (el' : MediaEl)
    (hg : (forEachMedia (fallbackStep pf) 0 els).1.get? i = some el')
    (ho : el'.owned = true) :
    MEvent.pauseCall i ∈ evs ++ (forEachMedia (fallbackStep pf) 0 els).2.2 := by
  obtain ⟨el, hgo, rfl⟩ := forEachMedia_get_rev _ 0 els i el' hg
  rw [Nat.zero_add] at ho
  rcases fallbackStep_owned pf i el ho with h1 | h1
  · exact List.mem_append_left _ (h i el hgo h1)
  · refine List.mem_append_right _ ?_
    have := (forEachMedia_get (fallbackStep pf) 0 els i el hgo).2
    rw [Nat.zero_add] at this
    exact this _ h1

/-- Every controller operation preserves the ownership invariant. -/
theorem applyOp_ownedLogged (s : MediaState) (evs : List MEvent) (op : MediaOp)
    (h : ownedLogged s evs) :
    ownedLogged (applyOp s op).1 (evs ++ (applyOp s op).2) := by
  intro i el' hg ho
  cases op with
  | opPauseAll pf =>
    exact pauseLoop_ownedLogged pf s.els evs h i el' hg ho
  | opResume rf =>
    obtain ⟨el, hgo, rfl⟩ := forEachMedia_get_rev _ 0 s.els i el' hg
    rw [Nat.zero_add] at ho
    exact List.mem_append_left _ (h i el hgo (resumeStep_owned rf i el ho))
  | opStartWatcher pf =>
    by_cases hw : s.watcherActive
    · simp only [applyOp, startMediaWatcher, hw, if_true] at hg ⊢
      exact List.mem_append_left _ (h i el' hg ho)
    · simp only [applyOp, startMediaWatcher, hw, if_false, pauseAllMedia] at hg ⊢
      exact pauseLoop_ownedLogged pf s.els evs h i el' hg ho
  | opStopWatcher =>
    simp only [applyOp, stopMediaWatcher] at hg ⊢
    exact List.mem_append_left _ (h i el' hg ho)
  | opFound fail j =>
    by_cases hw : s.watcherActive
    · cases hj : s.els.get? j with
      | none =>
        simp only [applyOp, onMediaElementFound, hw, hj, if_true] at hg ⊢
        exact List.mem_append_left _ (h i el' hg ho)
      | some elj =>
        by_cases hpp : elj.paused
        · simp only [applyOp, onMediaElementFound, hw, hj, hpp, if_true] at hg ⊢
          exact List.mem_append_left _ (h i el' hg ho)
        · by_cases hf : fail
          · simp only [applyOp, onMediaElementFound, hw, hj, hpp, hf, Bool.false_eq_true,
              if_true, if_false] at hg ⊢
            exact List.mem_append_left _ (h i el' hg ho)
          · simp only [applyOp, onMediaElementFound, hw, hj, hpp, hf, Bool.false_eq_true,
              if_true, if_false] at hg ⊢
            by_cases hij : i = j
            · subst hij
              exact List.mem_append_right _ (List.mem_singleton.mpr rfl)
            · rw [List.get?_set_ne _ _ (fun hh => hij hh.symm)] at hg
              exact List.mem_append_left _ (h i el' hg ho)
    · simp only [applyOp, onMediaElementFound, hw, if_false] at hg ⊢
      exact List.mem_append_left _ (h i el' hg ho)
  | opFallback pf =>
    by_cases hw : s.watcherActive
    · simp only [applyOp, fallbackPause, hw, if_true] at hg ⊢
      exact fallbackLoop_ownedLogged pf s.els evs h i el' hg ho
    · simp only [applyOp, fallbackPause, hw, if_false] at hg ⊢
      exact List.mem_append_left _ (h i el' hg ho)
  | extPlay j =>
    cases hj : s.els.get? j with
    | none =>
      simp only [applyOp, extSetPaused, hj] at hg ⊢
      exact List.mem_append_left _ (h i el' hg ho)
    | some elj =>
      simp only [applyOp, extSetPaused, hj] at hg ⊢
      by_cases hij : i = j
      · subst hij
        rw [List.get?_set_eq_of_lt _ (List.get?_eq_some.mp hj).1] at hg
        have hel : el' = ⟨false, elj.owned⟩ := (Option.some.inj hg).symm
        rw [hel] at ho
        exact List.mem_append_left _ (h i elj hj ho)
      · rw [List.get?_set_ne _ _ (fun hh => hij hh.symm)] at hg
        exact List.mem_append_left _ (h i el' hg ho)
  | extPause j =>
    cases hj : s.els.get? j with
    | none =>
      simp only [applyOp, extSetPaused, hj] at hg ⊢
      exact List.mem_append_left _ (h i el' hg ho)
    | some elj =>
      simp only [applyOp, extSetPaused, hj] at hg ⊢
      by_cases hij : i = j
      · subst hij
        rw [List.get?_set_eq_of_lt _ (List.get?_eq_some.mp hj).1] at hg
        have hel : el' = ⟨true, elj.owned⟩ := (Option.some.inj hg).symm
        rw [hel] at ho
        exact List.mem_append_left _ (h i elj hj ho)
      · rw [List.get?_set_ne _ _ (fun hh => hij hh.symm)] at hg
        exact List.mem_append_left _ (h i el' hg ho)
  | extAdd p =>
    simp only [applyOp] at hg ⊢
    by_cases hi : i < s.els.length
    · rw [List.get?_append hi] at hg
      exact List.mem_append_left _ (h i el' hg ho)
    · by_cases hieq : i = s.els.length
      · subst hieq
        rw [List.get?_concat_length] at hg
        cases hg
        cases ho
      · have hlen : s.els.length + 1 ≤ i := by omega
        have : (s.els ++ [(⟨p, false⟩ : MediaEl)]).get? i = none := by
          apply List.get?_len_le
          simpa using hlen
        rw [this] at hg
        cases hg

/-- Running any operation sequence preserves the ownership invariant. -/
theorem runOps_ownedLogged (ops : List MediaOp) (s : MediaState) (evs : List MEvent)
    (h : ownedLogged s evs) :
    ownedLogged (runOps s ops).1 (evs ++ (runOps s ops).2) := by
  induction ops generalizing s evs with
  | nil =>
    simpa [runOps] using h
  | cons op rest ih =>
    have h1 := applyOp_ownedLogged s evs op h
    have h2 := ih (applyOp s op).1 (evs ++ (applyOp s op).2) h1
    simpa [runOps, List.append_assoc] using h2

/-- Any play call an operation makes targets an element currently in the
ownership set. -/
theorem applyOp_playCall (s : MediaState) (op : MediaOp) (i : Nat)
    (h : MEvent.playCall i ∈ (applyOp s op).2) :
    ∃ el, s.els.get? i = some el ∧ el.owned = true := by
  cases op with
  | opPauseAll pf =>
    obtain ⟨j, el, _, he⟩ := forEachMedia_events _ 0 s.els _ h
    exact absurd he (pauseStep_no_playCall pf (0 + j) i el)
  | opResume rf =>
    obtain ⟨j, el, hg, he⟩ := forEachMedia_events _ 0 s.els _ h
    rw [Nat.zero_add] at he
    obtain ⟨hij, ho, _⟩ := resumeStep_playCall rf j i el he
    subst hij
    exact ⟨el, hg, ho⟩
  | opStartWatcher pf =>
    by_cases hw : s.watcherActive
    · simp [applyOp, startMediaWatcher, hw] at h
    · simp only [applyOp, startMediaWatcher, hw, if_false, pauseAllMedia] at h
      obtain ⟨j, el, _, he⟩ := forEachMedia_events _ 0 s.els _ h
      exact absurd he (pauseStep_no_playCall pf (0 + j) i el)
  | opStopWatcher =>
    simp [applyOp] at h
  | opFound fail j =>
    by_cases hw : s.watcherActive
    · simp only [applyOp, onMediaElementFound, hw, if_true] at h
      cases hj : s.els.get? j with
      | none => rw [hj] at h; simp at h
      | some elj =>
        rw [hj] at h
        by_cases hpp : elj.paused <;> by_cases hf : fail <;> simp [hpp, hf] at h
    · simp [applyOp, onMediaElementFound, hw] at h
  | opFallback pf =>
    by_cases hw : s.watcherActive
    · simp only [applyOp, fallbackPause, hw, if_true] at h
      obtain ⟨j, el, _, he⟩ := forEachMedia_events _ 0 s.els _ h
      exact absurd he (fallbackStep_no_playCall pf (0 + j) i el)
    · simp [applyOp, fallbackPause, hw] at h
  | extPlay j => simp [applyOp] at h
  | extPause j => simp [applyOp] at h
  | extAdd p => simp [applyOp] at h

/-! ## Claim theorems -/

/-- C6.  Ownership invariant: starting from any page on which this system
owns nothing, however the controller's operations (pause-all, resume,
watcher start/stop, watcher-discovered elements, fallback scans) interleave
with external play/pause activity and element insertion, any `el.play()`
call the controller makes targets an element on which the controller itself
made an `el.pause()` call earlier -- it never resumes media it did not
pause, even media that is currently paused. -/
theorem resume_only_owned (s0 : MediaState)
    (h0 : ∀ i el, s0.els.get? i = some el → el.owned = false)
    (ops : List MediaOp) (op : MediaOp) (i : Nat)
    (h : MEvent.playCall i ∈ (applyOp (runOps s0 ops).1 op).2) :
    MEvent.pauseCall i ∈ (runOps s0 ops).2 := by
  have hbase : ownedLogged s0 [] := by
    intro i el hg ho
    rw [h0 i el hg] at ho
    cases ho
  have hinv := runOps_ownedLogged ops s0 [] hbase
  obtain ⟨el, hg, ho⟩ := applyOp_playCall _ op i h
  simpa using hinv i el hg ho

/-- Witness for C6: one playing element nobody owns; `pauseAllMedia` pauses
and claims it, and the play call the subsequent resume makes is indeed
preceded by that logged pause call. -/
theorem resume_only_owned_witness :
    MEvent.pauseCall 0 ∈ (runOps ⟨[⟨false, false⟩], false⟩ [MediaOp.opPauseAll []]).2 :=
  resume_only_owned ⟨[⟨false, false⟩], false⟩
    (by
      intro i el hg
      match i with
      | 0 =>
        cases hg
        rfl
      | Nat.succ n => simp [List.get?] at hg)
    [MediaOp.opPauseAll []] (MediaOp.opResume []) 0 (by decide)

/-- Counterexample for C5: a single media element that this system paused
(it is in the ownership set) but that someone else has since resumed (it is
not in the paused condition).  `resumeOurPausedMedia` makes no play call --
but it also leaves the element in the ownership set, while the claim says
every such member is removed. -/
theorem resume_unpaused_member_not_removed :
    (resumeOurPausedMedia [] [⟨false, true⟩]).1 = [⟨false, true⟩] ∧
      (resumeOurPausedMedia [] [⟨false, true⟩]).2.2 = [] := by
  decide

/-- C5 (amended).  Per-element postcondition of `resumeOurPausedMedia`: a
member of the ownership set that is currently paused receives a play call
and is removed from the set (even when the play call throws, in which case
it simply stays paused); a member that is *not* currently paused receives
no play call and -- unlike what the claim states -- remains in the
ownership set untouched; a non-member is never touched. -/
theorem resumeOwned_per_element (rf : List Nat) (els : List MediaEl) (i : Nat)
    (el : MediaEl) (h : els.get? i = some el) :
    (el.owned = true → el.paused = true →
      (resumeOurPausedMedia rf els).1.get? i =
        some (if i ∈ rf then (⟨true, false⟩ : MediaEl) else ⟨false, false⟩) ∧
      MEvent.playCall i ∈ (resumeOurPausedMedia rf els).2.2) ∧
    (el.owned = true → el.paused = false →
      (resumeOurPausedMedia rf els).1.get? i = some el ∧
      MEvent.playCall i ∉ (resumeOurPausedMedia rf els).2.2) ∧
    (el.owned = false →
      (resumeOurPausedMedia rf els).1.get? i = some el ∧
      MEvent.playCall i ∉ (resumeOurPausedMedia rf els).2.2) := by
  have hg := forEachMedia_get (resumeStep rf) 0 els i el h
  rw [Nat.zero_add] at hg
  have hnot : ∀ hyp : ¬(el.owned = true ∧ el.paused = true),
      (resumeOurPausedMedia rf els).1.get? i = some el ∧
        MEvent.playCall i ∉ (resumeOurPausedMedia rf els).2.2 := by
    intro hyp
    have hstep : resumeStep rf i el = (el, 0, []) := by
      have : (el.owned && el.paused) = false := by
        cases ho : el.owned with
        | false => simp [ho]
        | true =>
          cases hpp : el.paused with
          | false => simp [ho, hpp]
          | true => exact absurd ⟨ho, hpp⟩ hyp
      simp [resumeStep, this]
    refine ⟨by simp only [resumeOurPausedMedia]; rw [hg.1, hstep], ?_⟩
    intro hmem
    obtain ⟨j, el2, hg2, he2⟩ := forEachMedia_events (resumeStep rf) 0 els _ hmem
    rw [Nat.zero_add] at he2
    obtain ⟨hij, ho2, hp2⟩ := resumeStep_playCall rf j i el2 he2
    subst hij
    rw [h] at hg2
    have : el = el2 := Option.some.inj hg2
    subst this
    exact hyp ⟨ho2, hp2⟩
  refine ⟨?_, ?_, ?_⟩
  · intro ho hpp
    have hstep : resumeStep rf i el =
        ((if i ∈ rf then (⟨true, false⟩ : MediaEl) else ⟨false, false⟩),
         if i ∈ rf then 0 else 1, [MEvent.playCall i]) := by
      by_cases hi : i ∈ rf <;> simp [resumeStep, ho, hpp, hi]
    refine ⟨by simp only [resumeOurPausedMedia]; rw [hg.1, hstep], ?_⟩
    exact hg.2 _ (by rw [hstep]; exact List.mem_singleton.mpr rfl)
  · intro ho hpp
    refine hnot ?_
    intro hand
    rw [hand.2] at hpp
    simp at hpp
  · intro ho
    refine hnot ?_
    intro hand
    rw [hand.1] at ho
    simp at ho

/-- Witness for C5 (amended): one owned paused element is played and leaves
the set; the same facts evaluated concretely. -/
theorem resumeOwned_per_element_witness :
    (resumeOurPausedMedia [] [⟨true, true⟩]).1.get? 0 = some ⟨false, false⟩ ∧
      MEvent.playCall 0 ∈ (resumeOurPausedMedia [] [⟨true, true⟩]).2.2 := by
  have h := (resumeOwned_per_element [] [⟨true, true⟩] 0 ⟨true, true⟩ rfl).1 rfl rfl
  simpa using h

/-- C9.  The enter-DISABLED handler is extensionally identical to the
enter-ACTIVE handler: the synchronous sections before the fade await are
the same function, and so are the post-fade tails (stop the watcher and
timers, fade the overlay out, then resume owned media). -/
theorem enter_disabled_eq_enter_active :
    enterDisabledStart = enterActiveStart ∧ enterDisabledFinish = enterActiveFinish :=
  ⟨rfl, rfl⟩

/-- C10.  A freshly constructed machine starts in ACTIVE with the executing
flag clear, nothing pending, no retained payload and the default 2-minute
timeout; attaching it to a page performs no effect: the page's media state
is untouched and the machine has made no media calls. -/
theorem constructor_initial_state :
    FSM.init.state = Mode.ACTIVE ∧ FSM.init.transitioning = false ∧
      FSM.init.pendingTransition = none ∧ FSM.init.statusData = none ∧
      FSM.init.timeout = 2 ∧
      ∀ ms : MediaState, (Conf.init ms).media = ms ∧ (Conf.init ms).log = [] :=
  ⟨rfl, rfl, rfl, rfl, rfl, fun _ => ⟨rfl, rfl⟩⟩

/-- While a transition is executing, every `transition` call just
overwrites the pending slot: no media call, no effect, no other field
changes. -/
theorem applyCalls_while_transitioning (pf rf : List Nat) (c : Conf)
    (h : c.fsm.transitioning = true) (rs : List (Mode × Option StatusData))
    (m : Mode) (d : Option StatusData) :
    applyCalls pf rf c (rs ++ [(m, d)]) =
      (⟨⟨c.fsm.state, c.fsm.transitioning, some (m, d), c.fsm.timeout,
         c.fsm.statusData⟩, c.media, c.susp, c.log⟩, []) := by
  induction rs generalizing c with
  | nil =>
    simp [applyCalls, callTransition, h]
  | cons r rs ih =>
    obtain ⟨m0, d0⟩ := r
    have hcall : callTransition pf rf c m0 d0 =
        (⟨⟨c.fsm.state, c.fsm.transitioning, some (m0, d0), c.fsm.timeout,
           c.fsm.statusData⟩, c.media, c.susp, c.log⟩, []) := by
      simp [callTransition, h]
    have := ih (⟨⟨c.fsm.state, c.fsm.transitioning, some (m0, d0), c.fsm.timeout,
      c.fsm.statusData⟩, c.media, c.susp, c.log⟩ : Conf) h
    simp only [List.cons_append, applyCalls, hcall]
    simpa using this

/-- C1.  Queue-collapse: for any burst of `transition` calls arriving while
a prior transition is executing, each call returns immediately having only
overwritten the single pending slot (so at most one request is ever
pending); no effect and no media call is performed on behalf of any of
them; and when the executing transition's fade completes, the machine
continues exactly as if only the last-issued request had ever arrived --
the intermediate requests are dropped and their effects never applied. -/
theorem queue_collapse (pf rf : List Nat) (c : Conf) (h : c.fsm.transitioning = true)
    (rs : List (Mode × Option StatusData)) (m : Mode) (d : Option StatusData) :
    (applyCalls pf rf c (rs ++ [(m, d)])).1.fsm.pendingTransition = some (m, d) ∧
      (applyCalls pf rf c (rs ++ [(m, d)])).2 = [] ∧
      (applyCalls pf rf c (rs ++ [(m, d)])).1.log = c.log ∧
      fadeDone pf rf (applyCalls pf rf c (rs ++ [(m, d)])).1 =
        fadeDone pf rf (applyCalls pf rf c [(m, d)]).1 := by
  have h1 := applyCalls_while_transitioning pf rf c h rs m d
  have h2 := applyCalls_while_transitioning pf rf c h [] m d
  rw [List.nil_append] at h2
  rw [h1, h2]
  exact ⟨rfl, rfl, rfl, rfl⟩

/-- Witness for C1: a machine mid-fade into ACTIVE receives INACTIVE,
DISABLED, then INACTIVE requests; only the last is pending, nothing was
logged, and completion from the collapsed state equals completion from the
last request alone. -/
theorem queue_collapse_witness :
    (applyCalls [] [] ⟨⟨Mode.ACTIVE, true, none, 2, none⟩, ⟨[⟨true, true⟩], false⟩,
        Susp.fading Mode.ACTIVE, []⟩
      ([(Mode.INACTIVE, none), (Mode.DISABLED, none)] ++
        [(Mode.INACTIVE, some ⟨false, false, true, 999, none⟩)])).1.fsm.pendingTransition =
      some (Mode.INACTIVE, some ⟨false, false, true, 999, none⟩) ∧
    (applyCalls [] [] ⟨⟨Mode.ACTIVE, true, none, 2, none⟩, ⟨[⟨true, true⟩], false⟩,
        Susp.fading Mode.ACTIVE, []⟩
      ([(Mode.INACTIVE, none), (Mode.DISABLED, none)] ++
        [(Mode.INACTIVE, some ⟨false, false, true, 999, none⟩)])).2 = [] ∧
    (applyCalls [] [] ⟨⟨Mode.ACTIVE, true, none, 2, none⟩, ⟨[⟨true, true⟩], false⟩,
        Susp.fading Mode.ACTIVE, []⟩
      ([(Mode.INACTIVE, none), (Mode.DISABLED, none)] ++
        [(Mode.INACTIVE, some ⟨false, false, true, 999, none⟩)])).1.log = [] ∧
    fadeDone [] [] (applyCalls [] [] ⟨⟨Mode.ACTIVE, true, none, 2, none⟩,
        ⟨[⟨true, true⟩], false⟩, Susp.fading Mode.ACTIVE, []⟩
      ([(Mode.INACTIVE, none), (Mode.DISABLED, none)] ++
        [(Mode.INACTIVE, some ⟨false, false, true, 999, none⟩)])).1 =
      fadeDone [] [] (applyCalls [] [] ⟨⟨Mode.ACTIVE, true, none, 2, none⟩,
        ⟨[⟨true, true⟩], false⟩, Susp.fading Mode.ACTIVE, []⟩
      [(Mode.INACTIVE, some ⟨false, false, true, 999, none⟩)]).1 :=
  queue_collapse [] [] ⟨⟨Mode.ACTIVE, true, none, 2, none⟩, ⟨[⟨true, true⟩], false⟩,
      Susp.fading Mode.ACTIVE, []⟩ rfl
    [(Mode.INACTIVE, none), (Mode.DISABLED, none)] Mode.INACTIVE
    (some ⟨false, false, true, 999, none⟩)

/-- C8.  Same-mode request: when the requested mode equals the current
mode, no enter or exit effect runs -- only the retained payload and the
overlay text are refreshed; in INACTIVE the pause is additionally
re-applied to the page (a steady-state refresh via `pauseAllMedia`), while
in ACTIVE and DISABLED nothing beyond the refresh happens and in
particular no resume call is made. -/
theorem same_mode_refresh (pf rf : List Nat) (c : Conf) (m : Mode)
    (d : Option StatusData) (h : c.fsm.state = m) :
    (execTransition pf rf c m d).1.fsm =
      ⟨m, c.fsm.transitioning, c.fsm.pendingTransition, c.fsm.timeout,
       newStatusData d c.fsm.statusData⟩ ∧
      (execTransition pf rf c m d).1.susp = c.susp ∧
      (execTransition pf rf c m d).2 =
        (if m = Mode.INACTIVE then [Eff.updateOverlay, Eff.pauseAll]
         else [Eff.updateOverlay]) ∧
      (m = Mode.INACTIVE →
        (execTransition pf rf c m d).1.media.els = (pauseAllMedia pf c.media.els).1 ∧
        (execTransition pf rf c m d).1.media.watcherActive = c.media.watcherActive) ∧
      (m ≠ Mode.INACTIVE →
        (execTransition pf rf c m d).1.media = c.media ∧
        (execTransition pf rf c m d).1.log = c.log) ∧
      Eff.resumeOwned ∉ (execTransition pf rf c m d).2 ∧
      Eff.startWatch ∉ (execTransition pf rf c m d).2 ∧
      Eff.stopWatch ∉ (execTransition pf rf c m d).2 ∧
      Eff.fadeOutBegin ∉ (execTransition pf rf c m d).2 := by
  subst h
  by_cases hm : c.fsm.state = Mode.INACTIVE
  · rw [execTransition]
    simp [hm]
  · rw [execTransition]
    simp [hm]

/-- Witness for C8: a machine sitting in INACTIVE receives another INACTIVE
update; the payload is refreshed and `pauseAllMedia` re-applied, with no
enter effects. -/
theorem same_mode_refresh_witness :
    (execTransition [] [] ⟨⟨Mode.INACTIVE, false, none, 2, none⟩, ⟨[⟨false, true⟩], true⟩,
        Susp.idle, []⟩ Mode.INACTIVE (some ⟨false, false, true, 7, none⟩)).1.fsm =
      ⟨Mode.INACTIVE, false, none, 2, some ⟨false, false, true, 7, none⟩⟩ ∧
    (execTransition [] [] ⟨⟨Mode.INACTIVE, false, none, 2, none⟩, ⟨[⟨false, true⟩], true⟩,
        Susp.idle, []⟩ Mode.INACTIVE (some ⟨false, false, true, 7, none⟩)).2 =
      [Eff.updateOverlay, Eff.pauseAll] := by
  have h := same_mode_refresh [] [] ⟨⟨Mode.INACTIVE, false, none, 2, none⟩,
    ⟨[⟨false, true⟩], true⟩, Susp.idle, []⟩ Mode.INACTIVE
    (some ⟨false, false, true, 7, none⟩) rfl
  exact ⟨h.1, by simpa using h.2.2.1⟩

/-- C3.  A transition that executes always lands: from an idle machine (no
transition executing, nothing pending), `transition(m, d)` either completes
synchronously -- leaving the machine in mode `m` with the executing flag
clear -- or parks at the fade await already in mode `m`, and when the fade
completes the machine is in mode `m` with the executing flag clear and no
suspension left.  This holds for *every* choice of per-resource pause and
play failures (`pf`, `rf`), which the source catches per element: failures
never prevent the mode from landing or the flag from clearing, and the
operation is a total function -- it never raises to its caller. -/
theorem transition_lands (pf rf : List Nat) (c : Conf) (m : Mode) (d : Option StatusData)
    (h1 : c.fsm.transitioning = false) (h2 : c.fsm.pendingTransition = none)
    (h3 : c.susp = Susp.idle) :
    ((callTransition pf rf c m d).1.susp = Susp.idle →
      (callTransition pf rf c m d).1.fsm.state = m ∧
        (callTransition pf rf c m d).1.fsm.transitioning = false) ∧
    ((callTransition pf rf c m d).1.susp ≠ Susp.idle →
      (callTransition pf rf c m d).1.fsm.state = m ∧
        (fadeDone pf rf (callTransition pf rf c m d).1).1.fsm.state = m ∧
        (fadeDone pf rf (callTransition pf rf c m d).1).1.fsm.transitioning = false ∧
        (fadeDone pf rf (callTransition pf rf c m d).1).1.susp = Susp.idle) := by
  obtain ⟨⟨st, tr, pend, tout, sdt⟩, med, sus, lg⟩ := c
  cases tr with
  | true => simp at h1
  | false =>
    cases sus with
    | fading t => simp at h3
    | idle =>
      cases pend with
      | some r => simp at h2
      | none =>
        cases m <;> cases st <;>
          simp [callTransition, execTransition, fadeDone]

/-- Witness for C3: an idle INACTIVE machine transitions to ACTIVE with a
failing play call on its one owned element; it parks at the fade and after
the fade completes it is in ACTIVE, not executing, idle. -/
theorem transition_lands_witness :
    ((callTransition [] [0] ⟨⟨Mode.INACTIVE, false, none, 2, none⟩, ⟨[⟨true, true⟩], true⟩,
        Susp.idle, []⟩ Mode.ACTIVE (some ⟨true, false, true, 0, none⟩)).1.susp ≠
      Susp.idle) ∧
    (fadeDone [] [0] (callTransition [] [0] ⟨⟨Mode.INACTIVE, false, none, 2, none⟩,
        ⟨[⟨true, true⟩], true⟩, Susp.idle, []⟩ Mode.ACTIVE
        (some ⟨true, false, true, 0, none⟩)).1).1.fsm.state = Mode.ACTIVE ∧
    (fadeDone [] [0] (callTransition [] [0] ⟨⟨Mode.INACTIVE, false, none, 2, none⟩,
        ⟨[⟨true, true⟩], true⟩, Susp.idle, []⟩ Mode.ACTIVE
        (some ⟨true, false, true, 0, none⟩)).1).1.fsm.transitioning = false := by
  have h := transition_lands [] [0] ⟨⟨Mode.INACTIVE, false, none, 2, none⟩,
    ⟨[⟨true, true⟩], true⟩, Susp.idle, []⟩ Mode.ACTIVE
    (some ⟨true, false, true, 0, none⟩) rfl rfl rfl
  have hne : (callTransition [] [0] ⟨⟨Mode.INACTIVE, false, none, 2, none⟩,
      ⟨[⟨true, true⟩], true⟩, Susp.idle, []⟩ Mode.ACTIVE
      (some ⟨true, false, true, 0, none⟩)).1.susp ≠ Susp.idle := by
    simp [callTransition, execTransition]
  exact ⟨hne, (h.2 hne).2.1, (h.2 hne).2.2.1⟩

/-- Resuming plays every owned paused element, and (absent play failures)
leaves every owned element unpaused. -/
theorem resume_element_play (rf : List Nat) (els : List MediaEl) (i : Nat) (el : MediaEl)
    (h : els.get? i = some el) (ho : el.owned = true) :
    (el.paused = true → MEvent.playCall i ∈ (resumeOurPausedMedia rf els).2.2) ∧
      (i ∉ rf → ((resumeOurPausedMedia rf els).1.get? i).map MediaEl.paused = some false) := by
  have hg := forEachMedia_get (resumeStep rf) 0 els i el h
  rw [Nat.zero_add] at hg
  constructor
  · intro hpp
    refine hg.2 _ ?_
    by_cases hi : i ∈ rf <;> simp [resumeStep, ho, hpp, hi]
  · intro hrf
    have h1 : (resumeOurPausedMedia rf els).1.get? i = some (resumeStep rf i el).1 := hg.1
    rw [h1]
    cases hpp : el.paused with
    | true => simp [resumeStep, ho, hpp, hrf]
    | false => simp [resumeStep, ho, hpp]

/-- C7.  Enter-ACTIVE ordering: a transition into ACTIVE from a different
mode first stops the media watcher (its synchronous effect list opens with
`stopWatch` and the watcher flag is already down while the fade runs, so no
further automatic pausing), then begins the overlay fade and parks there
without having made any resume call; only when the fade completes does the
resume of owned media run (`fadeOutEnd` precedes `resumeOwned`), at which
point every element in the ownership set that is paused receives a play
call, and -- for every element whose play call does not fail -- every owned
element ends up playing. -/
theorem enter_active_ordering (pf rf : List Nat) (c : Conf) (d : Option StatusData)
    (h1 : c.fsm.state ≠ Mode.ACTIVE) (h2 : c.fsm.transitioning = false)
    (h3 : c.fsm.pendingTransition = none) :
    (execTransition pf rf c Mode.ACTIVE d).2 =
      [Eff.stopWatch, Eff.stopElapsed, Eff.stopPoll, Eff.fadeOutBegin] ∧
      (execTransition pf rf c Mode.ACTIVE d).1.susp = Susp.fading Mode.ACTIVE ∧
      (execTransition pf rf c Mode.ACTIVE d).1.media.watcherActive = false ∧
      (execTransition pf rf c Mode.ACTIVE d).1.media.els = c.media.els ∧
      (fadeDone pf rf (execTransition pf rf c Mode.ACTIVE d).1).2 =
        [Eff.fadeOutEnd, Eff.resumeOwned] ∧
      (fadeDone pf rf (execTransition pf rf c Mode.ACTIVE d).1).1.log =
        c.log ++ (resumeOurPausedMedia rf c.media.els).2.2 ∧
      (fadeDone pf rf (execTransition pf rf c Mode.ACTIVE d).1).1.media.els =
        (resumeOurPausedMedia rf c.media.els).1 ∧
      (∀ i el, c.media.els.get? i = some el → el.owned = true → el.paused = true →
        MEvent.playCall i ∈ (resumeOurPausedMedia rf c.media.els).2.2) ∧
      (∀ i el, c.media.els.get? i = some el → el.owned = true → i ∉ rf →
        ((resumeOurPausedMedia rf c.media.els).1.get? i).map MediaEl.paused =
          some false) := by
  obtain ⟨⟨st, tr, pend, tout, sdt⟩, med, sus, lg⟩ := c
  cases pend with
  | some r => simp at h3
  | none =>
    refine ⟨?_, ?_, ?_, ?_, ?_, ?_, ?_, ?_, ?_⟩
    · cases st <;> first
        | exact absurd rfl h1
        | simp [execTransition, enterActiveStart, stopMediaWatcher]
    · cases st <;> first
        | exact absurd rfl h1
        | simp [execTransition, enterActiveStart, stopMediaWatcher]
    · cases st <;> first
        | exact absurd rfl h1
        | simp [execTransition, enterActiveStart, stopMediaWatcher]
    · cases st <;> first
        | exact absurd rfl h1
        | simp [execTransition, enterActiveStart, stopMediaWatcher]
    · cases st <;> first
        | exact absurd rfl h1
        | simp [execTransition, enterActiveStart, stopMediaWatcher, fadeDone,
            enterActiveFinish]
    · cases st <;> first
        | exact absurd rfl h1
        | simp [execTransition, enterActiveStart, stopMediaWatcher, fadeDone,
            enterActiveFinish]
    · cases st <;> first
        | exact absurd rfl h1
        | simp [execTransition, enterActiveStart, stopMediaWatcher, fadeDone,
            enterActiveFinish]
    · intro i el hg ho hpp
      exact (resume_element_play rf med.els i el hg ho).1 hpp
    · intro i el hg ho hrf
      exact (resume_element_play rf med.els i el hg ho).2 hrf

/-- Witness for C7: an INACTIVE machine with one owned paused element
transitions to ACTIVE; the effect order and the resume of the single owned
element are evaluated concretely. -/
theorem enter_active_ordering_witness :
    (execTransition [] [] ⟨⟨Mode.INACTIVE, false, none, 2, none⟩, ⟨[⟨true, true⟩], true⟩,
        Susp.idle, []⟩ Mode.ACTIVE (some ⟨true, false, true, 0, none⟩)).2 =
      [Eff.stopWatch, Eff.stopElapsed, Eff.stopPoll, Eff.fadeOutBegin] ∧
    (fadeDone [] [] (execTransition [] [] ⟨⟨Mode.INACTIVE, false, none, 2, none⟩,
        ⟨[⟨true, true⟩], true⟩, Susp.idle, []⟩ Mode.ACTIVE
        (some ⟨true, false, true, 0, none⟩)).1).2 = [Eff.fadeOutEnd, Eff.resumeOwned] ∧
    MEvent.playCall 0 ∈ (resumeOurPausedMedia [] [⟨true, true⟩]).2.2 := by
  have h := enter_active_ordering [] [] ⟨⟨Mode.INACTIVE, false, none, 2, none⟩,
    ⟨[⟨true, true⟩], true⟩, Susp.idle, []⟩ (some ⟨true, false, true, 0, none⟩)
    (by simp) rfl rfl
  exact ⟨h.1, h.2.2.2.2.1, h.2.2.2.2.2.2.2.1 0 ⟨true, true⟩ rfl rfl rfl⟩

/-! ### Broadcast serializer lemmas -/

theorem runPass_inProgress (rem : List Nat) (s : BCast) :
    (runPass s rem).inProgress = s.inProgress := by
  induction rem generalizing s with
  | nil => rfl
  | cons r rest ih => simp [runPass, ih]

theorem runPass_queued (rem : List Nat) (s : BCast) :
    (runPass s rem).queued = s.queued := by
  induction rem generalizing s with
  | nil => rfl
  | cons r rest ih => simp [runPass, ih]

theorem runPass_lastStatus (rem : List Nat) (s : BCast) :
    (runPass s rem).lastStatus = s.lastStatus := by
  induction rem generalizing s with
  | nil => rfl
  | cons r rest ih => simp [runPass, ih]

theorem runPass_scheduled (rem : List Nat) (s : BCast) :
    (runPass s rem).scheduled = s.scheduled := by
  induction rem generalizing s with
  | nil => rfl
  | cons r rest ih => simp [runPass, ih]

theorem runPass_passes (rem : List Nat) (s : BCast) :
    (runPass s rem).passes = s.passes := by
  induction rem generalizing s with
  | nil => rfl
  | cons r rest ih => simp [runPass, ih]

theorem runPass_delivered_length (rem : List Nat) (s : BCast) :
    (runPass s rem).delivered.length = s.delivered.length := by
  induction rem generalizing s with
  | nil => rfl
  | cons r rest ih => simp [runPass, ih]

theorem runPass_delivered_not_mem (rem : List Nat) (s : BCast) (r : Nat) (h : r ∉ rem) :
    (runPass s rem).delivered.get? r = s.delivered.get? r := by
  induction rem generalizing s with
  | nil => rfl
  | cons r0 rest ih =>
    have hne : r ≠ r0 := fun he => h (he ▸ List.mem_cons_self r0 rest)
    have hrest : r ∉ rest := fun he => h (List.mem_cons_of_mem r0 he)
    rw [runPass, ih _ hrest]
    exact List.get?_set_ne _ _ (fun he => hne he.symm)

theorem runPass_delivered_mem (rem : List Nat) (s : BCast) (r : Nat)
    (hlen : r < s.delivered.length) (hmem : r ∈ rem) :
    (runPass s rem).delivered.get? r = some (some s.lastStatus) := by
  induction rem generalizing s with
  | nil => cases hmem
  | cons r0 rest ih =>
    by_cases hrest : r ∈ rest
    · rw [runPass]
      rw [ih _ (by simpa using hlen) hrest]
    · have hr0 : r = r0 := by
        rcases List.mem_cons.mp hmem with he | he
        · exact he
        · exact absurd he hrest
      subst hr0
      rw [runPass, runPass_delivered_not_mem rest _ r hrest]
      exact List.get?_set_eq_of_lt _ hlen

/-- After the pending timers fire with no pass running, nothing queued and
no new requests, a delivery table already holding the latest payload keeps
holding it (each extra pass just re-sends the same payload). -/
theorem drainTimers_keep (n : Nat) (fuel : Nat) (s : BCast) (p : StatusData)
    (hip : s.inProgress = false) (hq : s.queued = false) (hls : s.lastStatus = p)
    (hlen : s.delivered.length = n)
    (hall : ∀ r, r < n → s.delivered.get? r = some (some p)) :
    ∀ r, r < n → (drainTimers n fuel s).delivered.get? r = some (some p) := by
  induction fuel generalizing s with
  | zero => exact hall
  | succ fuel ih =>
    by_cases hsch : s.scheduled = 0
    · rw [drainTimers, if_pos hsch]
      exact hall
    · rw [drainTimers, if_neg hsch]
      simp only [hip, Bool.false_eq_true, if_false]
      refine ih _ ?_ ?_ ?_ ?_ ?_
      · simp [finishPass, runPass_queued, hq]
      · simp [finishPass, runPass_queued, hq]
      · simp [finishPass, runPass_queued, hq, runPass_lastStatus, hls]
      · simp [finishPass, runPass_queued, hq, runPass_delivered_length, hlen]
      · intro r hr
        have hmem : r ∈ List.range n := List.mem_range.mpr hr
        have hlen2 : r < (⟨true, s.queued, s.lastStatus, s.scheduled - 1, [],
            s.delivered⟩ : BCast).delivered.length := by
          simpa [hlen] using hr
        have := runPass_delivered_mem (List.range n) _ r hlen2 hmem
        simp only [finishPass, runPass_queued, hq, Bool.false_eq_true, if_false]
        simpa [hls, hq] using this

/-- If at least one timer callback is pending while the serializer is idle
and unqueued, the drain delivers the current payload to every receiver. -/
theorem drainTimers_deliver (n : Nat) (fuel : Nat) (s : BCast) (p : StatusData)
    (hip : s.inProgress = false) (hq : s.queued = false) (hls : s.lastStatus = p)
    (hlen : s.delivered.length = n) (hs : 1 ≤ s.scheduled) (hf : s.scheduled ≤ fuel) :
    ∀ r, r < n → (drainTimers n fuel s).delivered.get? r = some (some p) := by
  cases fuel with
  | zero => omega
  | succ fuel =>
    have hsch : ¬s.scheduled = 0 := by omega
    rw [drainTimers, if_neg hsch]
    simp only [hip, Bool.false_eq_true, if_false]
    refine drainTimers_keep n fuel _ p ?_ ?_ ?_ ?_ ?_
    · simp [finishPass, runPass_queued, hq]
    · simp [finishPass, runPass_queued, hq]
    · simp [finishPass, runPass_queued, hq, runPass_lastStatus, hls]
    · simp [finishPass, runPass_queued, hq, runPass_delivered_length, hlen]
    · intro r hr
      have hmem : r ∈ List.range n := List.mem_range.mpr hr
      have hlen2 : r < (⟨true, s.queued, s.lastStatus, s.scheduled - 1, [],
          s.delivered⟩ : BCast).delivered.length := by
        simpa [hlen] using hr
      have := runPass_delivered_mem (List.range n) _ r hlen2 hmem
      simp only [finishPass, runPass_queued, hq, Bool.false_eq_true, if_false]
      simpa [hls, hq] using this

/-- Each serializer step preserves the single-flight invariant. -/
theorem BStep_inv (n : Nat) (s s' : BCast) (hinv : BInv n s) (h : BStep n s s') :
    BInv n s' := by
  obtain ⟨hlen, hiff, hq, hdel⟩ := hinv
  cases h with
  | request p s =>
    by_cases hip : s.inProgress = true
    · refine ⟨?_, ?_, ?_, ?_⟩ <;> simp [requestBroadcast, hip] <;>
        first
        | exact hlen
        | exact hiff.mp hip
        | exact hdel
    · have hpe : s.passes = [] := by
        by_contra hne
        exact hip (hiff.mpr hne)
      have hqe : s.queued = false := by
        by_cases hh : s.queued = true
        · exact absurd (hq hh) hip
        · simpa using hh
      refine ⟨?_, ?_, ?_, ?_⟩ <;>
        simp [requestBroadcast, hip, hpe, hqe, hdel]
  | send s i r rest hp =>
    have hi : i < s.passes.length := (List.get?_eq_some.mp hp).1
    refine ⟨by simpa using hlen, ?_, by simpa using hq, by simpa using hdel⟩
    constructor
    · intro hip
      have := hiff.mp hip
      intro hnil
      have : s.passes.length = 0 := by
        have := congrArg List.length hnil
        simpa using this
      omega
    · intro hnil
      refine hiff.mpr ?_
      intro hnil2
      rw [hnil2] at hi
      simp at hi
  | sendFail s i r rest hp =>
    have hi : i < s.passes.length := (List.get?_eq_some.mp hp).1
    refine ⟨by simpa using hlen, ?_, by simpa using hq, by simpa using hdel⟩
    constructor
    · intro hip
      have := hiff.mp hip
      intro hnil
      have : s.passes.length = 0 := by
        have := congrArg List.length hnil
        simpa using this
      omega
    · intro hnil
      refine hiff.mpr ?_
      intro hnil2
      rw [hnil2] at hi
      simp at hi
  | finish s i hp hqf =>
    have hi : i < s.passes.length := (List.get?_eq_some.mp hp).1
    have herase : (s.passes.eraseIdx i).length = s.passes.length - 1 :=
      List.length_eraseIdx_of_lt hi
    refine ⟨by simp [herase]; omega, ?_, by simp, by simpa using hdel⟩
    have : (s.passes.eraseIdx i).length = 0 := by omega
    have hnil : s.passes.eraseIdx i = [] := List.length_eq_zero.mp this
    simp [hnil]
  | finishQueued s i hp hqt =>
    have hi : i < s.passes.length := (List.get?_eq_some.mp hp).1
    have herase : (s.passes.eraseIdx i).length = s.passes.length - 1 :=
      List.length_eraseIdx_of_lt hi
    refine ⟨by simp [herase]; omega, ?_, by simp, by simpa using hdel⟩
    have : (s.passes.eraseIdx i).length = 0 := by omega
    have hnil : s.passes.eraseIdx i = [] := List.length_eq_zero.mp this
    simp [hnil]
  | timer s hs =>
    by_cases hip : s.inProgress = true
    · refine ⟨?_, ?_, ?_, ?_⟩ <;> simp [timerFire, hip] <;>
        first
        | exact hlen
        | exact hiff.mp hip
        | exact hdel
    · have hpe : s.passes = [] := by
        by_contra hne
        exact hip (hiff.mpr hne)
      have hqe : s.queued = false := by
        by_cases hh : s.queued = true
        · exact absurd (hq hh) hip
        · simpa using hh
      refine ⟨?_, ?_, ?_, ?_⟩ <;>
        simp [timerFire, hip, hpe, hqe, hdel]

/-- C2.  Single-flight broadcast: the invariant that at most one fan-out
pass exists (and that the in-progress flag tracks it exactly, with at most
the single boolean follow-up marker queued) holds initially and is
preserved by every step, for every interleaving of requests, per-receiver
sends and failures, pass completions and timer callbacks; a request that
arrives while a pass is in progress only marks the follow-up (latest
request wins, no second pass starts); and from any invariant state, after
one more request the system run to quiescence has delivered that last
requested payload to every receiver. -/
theorem single_flight_broadcast (n : Nat) :
    (∀ p0, BInv n (initB n p0)) ∧
      (∀ s s', BInv n s → BStep n s s' → BInv n s') ∧
      (∀ s p, s.inProgress = true →
        requestBroadcast n p s = ⟨true, true, p, s.scheduled, s.passes, s.delivered⟩) ∧
      (∀ s p r, BInv n s → r < n →
        (drainB n (requestBroadcast n p s)).delivered.get? r = some (some p)) := by
  refine ⟨?_, ?_, ?_, ?_⟩
  · intro p0
    refine ⟨by simp [initB], by simp [initB], by simp [initB], by simp [initB]⟩
  · exact fun s s' hinv h => BStep_inv n s s' hinv h
  · intro s p hip
    simp [requestBroadcast, hip]
  · intro s p r hinv hr
    obtain ⟨hlen, hiff, hq, hdel⟩ := hinv
    by_cases hip : s.inProgress = true
    · obtain ⟨rem, rest, hpe⟩ : ∃ rem rest, s.passes = rem :: rest := by
        have hne := hiff.mp hip
        cases hpc : s.passes with
        | nil => exact absurd hpc hne
        | cons rem rest => exact ⟨rem, rest, rfl⟩
      rw [show requestBroadcast n p s =
          ⟨true, true, p, s.scheduled, s.passes, s.delivered⟩ by
        simp [requestBroadcast, hip]]
      rw [drainB]
      simp only [hpe]
      have hq2 : (runPass ⟨true, true, p, s.scheduled, [], s.delivered⟩ rem).queued =
          true := by
        rw [runPass_queued]
      have hfin : finishPass (runPass ⟨true, true, p, s.scheduled, [], s.delivered⟩ rem)
          [] =
          ⟨false, false,
           (runPass ⟨true, true, p, s.scheduled, [], s.delivered⟩ rem).lastStatus,
           (runPass ⟨true, true, p, s.scheduled, [], s.delivered⟩ rem).scheduled + 1, [],
           (runPass ⟨true, true, p, s.scheduled, [], s.delivered⟩ rem).delivered⟩ := by
        rw [finishPass, if_pos hq2]
      rw [hfin]
      refine drainTimers_deliver n _ _ p rfl rfl ?_ ?_ ?_ ?_ r hr
      · rw [runPass_lastStatus]
      · rw [runPass_delivered_length]
        simpa using hdel
      · simp
      · simp [runPass_scheduled]
    · have hpe : s.passes = [] := by
        by_contra hne
        exact hip (hiff.mpr hne)
      have hqe : s.queued = false := by
        by_cases hh : s.queued = true
        · exact absurd (hq hh) hip
        · simpa using hh
      rw [show requestBroadcast n p s =
          ⟨true, s.queued, p, s.scheduled, s.passes ++ [List.range n], s.delivered⟩ by
        simp [requestBroadcast, hip]]
      rw [drainB]
      simp only [hpe, hqe, List.nil_append]
      have hq2 : (runPass ⟨true, false, p, s.scheduled, [], s.delivered⟩
          (List.range n)).queued = false := by
        rw [runPass_queued]
      have hfin : finishPass (runPass ⟨true, false, p, s.scheduled, [], s.delivered⟩
          (List.range n)) [] =
          ⟨false, false,
           (runPass ⟨true, false, p, s.scheduled, [], s.delivered⟩
             (List.range n)).lastStatus,
           (runPass ⟨true, false, p, s.scheduled, [], s.delivered⟩
             (List.range n)).scheduled, [],
           (runPass ⟨true, false, p, s.scheduled, [], s.delivered⟩
             (List.range n)).delivered⟩ := by
        rw [finishPass, if_neg (by rw [hq2]; exact Bool.false_ne_true), hq2]
      rw [hfin]
      refine drainTimers_keep n _ _ p rfl rfl ?_ ?_ ?_ r hr
      · rw [runPass_lastStatus]
      · rw [runPass_delivered_length]
        simpa using hdel
      · intro r2 hr2
        have hmem : r2 ∈ List.range n := List.mem_range.mpr hr2
        have hlen2 : r2 < (⟨true, false, p, s.scheduled, [],
            s.delivered⟩ : BCast).delivered.length := by
          simpa [hdel] using hr2
        simpa using runPass_delivered_mem (List.range n) _ r2 hlen2 hmem

/-- Witness for C2: from a fresh two-receiver system, one request runs to
quiescence and receiver 0 holds the requested payload. -/
theorem single_flight_broadcast_witness :
    (drainB 2 (requestBroadcast 2 ⟨true, false, true, 4, none⟩
        (initB 2 ⟨false, false, false, 0, none⟩))).delivered.get? 0 =
      some (some ⟨true, false, true, 4, none⟩) :=
  (single_flight_broadcast 2).2.2.2 (initB 2 ⟨false, false, false, 0, none⟩)
    ⟨true, false, true, 4, none⟩ 0 (by unfold BInv; decide) (by decide)

/-! ### Generation guard lemmas -/

theorem GStep_current_mono (recv : List Nat) (s s' : GState) (h : GStep recv s s') :
    s.current ≤ s'.current := by
  cases h with
  | begin => simp [beginGen]
  | check i e hp => exact Nat.le_refl _

theorem GStep_stale_filter (recv : List Nat) (s s' : GState) (t : Nat)
    (h : GStep recv s s') (ht : t < s.current) :
    s'.sent.filter (fun x => x.1 == t) = s.sent.filter (fun x => x.1 == t) := by
  cases h with
  | begin => rfl
  | check i e hp =>
    cases hr : e.remaining with
    | nil => simp [checkpointStep, hr]
    | cons r rest =>
      by_cases hcur : isCurrent s.current e.token = true
      · have htok : e.token = s.current := by simpa [isCurrent] using hcur
        have hne : (e.token == t) = false := by
          rw [htok]
          simp
          omega
        simp [checkpointStep, hr, hcur, List.filter_append, hne]
      · simp [checkpointStep, hr, hcur]

theorem GReach_mono_stale (recv : List Nat) (s s' : GState) (h : GReach recv s s') :
    s.current ≤ s'.current ∧
      ∀ t, t < s.current →
        s'.sent.filter (fun x => x.1 == t) = s.sent.filter (fun x => x.1 == t) := by
  induction h with
  | refl => exact ⟨Nat.le_refl _, fun _ _ => rfl⟩
  | tail hreach hstep ih =>
    refine ⟨ih.1.trans (GStep_current_mono recv _ _ hstep), ?_⟩
    intro t ht
    have ht2 : t < _ := Nat.lt_of_lt_of_le ht ih.1
    rw [GStep_stale_filter recv _ _ t hstep ht2, ih.2 t ht]

/-- C4.  Generation law: `begin` (the `++updateGeneration` of
`serializedUpdateAllSites`) increments the current generation and hands the
new value to the started enumeration as its token; `isCurrent` holds
exactly when the token equals the live value; a checkpoint reached with a
stale token ends the enumeration on the spot -- remaining receivers are
dropped and nothing is sent; and along every reachable future (any mix of
new `begin`s and checkpoints), the current value is monotone and an
enumeration whose token is already below the current generation never
contributes another send: the sends carrying that token are exactly those
already performed. -/
theorem generation_guard (recv : List Nat) :
    (∀ g, beginGen g = (g + 1, g + 1)) ∧
      (∀ g t, isCurrent g t = true ↔ t = g) ∧
      (∀ cur (e : EnumCfg) r rest, e.remaining = r :: rest → e.token ≠ cur →
        checkpointStep cur e = (⟨e.token, []⟩, [])) ∧
      (∀ s s', GReach recv s s' →
        s.current ≤ s'.current ∧
          ∀ t, t < s.current →
            s'.sent.filter (fun x => x.1 == t) = s.sent.filter (fun x => x.1 == t)) := by
  refine ⟨fun g => rfl, ?_, ?_, ?_⟩
  · intro g t
    simp [isCurrent]
  · intro cur e r rest hr hne
    have hcur : isCurrent cur e.token = false := by
      simp [isCurrent]
      exact hne
    rw [checkpointStep, hr]
    simp [hcur]
  · exact fun s s' h => GReach_mono_stale recv s s' h

/-- Witness for C4: with the generation already advanced to 2, the
enumeration holding token 1 hits its checkpoint, aborts, and the send log
for token 1 stays exactly as it was. -/
theorem generation_guard_witness :
    (⟨2, [⟨1, [0, 1]⟩], []⟩ : GState).current ≤ (⟨2, [⟨1, []⟩], []⟩ : GState).current ∧
      (⟨2, [⟨1, []⟩], []⟩ : GState).sent.filter (fun x => x.1 == 1) =
        (⟨2, [⟨1, [0, 1]⟩], []⟩ : GState).sent.filter (fun x => x.1 == 1) := by
  have h := ((generation_guard [0, 1]).2.2.2 ⟨2, [⟨1, [0, 1]⟩], []⟩ ⟨2, [⟨1, []⟩], []⟩
    (Relation.ReflTransGen.single (GStep.check ⟨2, [⟨1, [0, 1]⟩], []⟩ 0 ⟨1, [0, 1]⟩ rfl)))
  exact ⟨h.1, h.2 1 (by decide)⟩

end FocusMode
